import Mathlib

/-!
Verification of the e2RTLedger real-time ledger relay pipeline.

The development embeds, as executable Lean definitions:
* the WebSocket Relay Service (`websocket/server.js`): a Redis subscriber
  holding an in-memory `seenFingerprints` set, deduplicating
  `ledger_updates` messages by fingerprint and relaying `log_stream`
  messages unfiltered to all connected socket.io clients;
* the client-side ledger handler (`LedgerTable.tsx`, `handleUpdate`),
  which drops incoming entries duplicated by fingerprint or by content;
* the live-console handler (`LiveConsole.tsx`), which keeps a bounded
  log history;
* the Claim Store contract of the backend, modelled from the spec since
  the backend service code is not part of the repository snapshot.
-/

namespace RTLedger

/-- A parsed `ledger_updates` payload (the `LedgerEntry` shape of
`LedgerTable.tsx`).  `fingerprint` is `none` when the JSON object carries
no `fingerprint` field (JS `undefined`). -/
structure LedgerMsg where
  text : String := ""
  date : String := ""
  amount : Int := 0
  currency : String := ""
  vendor : String := ""
  ttype : String := ""
  referenceid : String := ""
  label : String := ""
  fingerprint : Option String := none
deriving DecidableEq

/-- A parsed `log_stream` payload `{log: string}`.  `log` is `none` when
the field is absent; `raw` records the JSON serialization of the whole
message, which is what `JSON.stringify(msg)` returns on the client. -/
structure LogMsg where
  log : Option String := none
  raw : String := ""
deriving DecidableEq

/-- A push event emitted by the relay over socket.io (`io.emit`). -/
inductive Push where
  | ledgerUpdate (e : LedgerMsg)
  | logLine (m : LogMsg)
deriving DecidableEq

/-- An inbound event processed by the relay's single-threaded event loop:
a Redis message on one of the two channels (`none` payload = the raw
string failed `JSON.parse`), or a new socket.io client connection. -/
inductive RelayEvent where
  | ledgerMsg (raw : Option LedgerMsg)
  | logMsg (raw : Option LogMsg)
  | connect (c : Nat)
deriving DecidableEq

/-- The relay process state: the `seenFingerprints` set (as a list of
dedup keys; `none` is the key JS `undefined`), the connected clients,
the append-only log of per-client deliveries, and the append-only log of
`io.emit` calls. -/
structure RelayState where
  seen : List (Option String)
  clients : List Nat
  delivered : List (Nat × Push)
  emits : List Push
deriving DecidableEq

/-- `io.emit(event, payload)`: records the emit and delivers the push to
every currently connected client. -/
def ioEmit (s : RelayState) (p : Push) : RelayState :=
  { s with
    emits := s.emits ++ [p],
    delivered := s.delivered ++ s.clients.map (fun c => (c, p)) }

/-- One step of the relay event loop, translated from
`websocket/server.js`: the `ledger_updates` subscriber drops messages
whose fingerprint is in `seenFingerprints` and otherwise records the
fingerprint and emits `ledger_update`; the `log_stream` subscriber emits
unconditionally; a `JSON.parse` failure is caught (state unchanged); a
connection only logs. -/
def relayStep (s : RelayState) (ev : RelayEvent) : RelayState :=
  match ev with
  | .ledgerMsg none => s
  | .ledgerMsg (some entry) =>
      if entry.fingerprint ∈ s.seen then s
      else ioEmit { s with seen := entry.fingerprint :: s.seen } (.ledgerUpdate entry)
  | .logMsg none => s
  | .logMsg (some m) => ioEmit s (.logLine m)
  | .connect c => { s with clients := s.clients ++ [c] }

/-- Console lines produced by one relay event (the `console.error` calls
in the two catch branches and the `console.log` of the connection
handler). -/
def consoleLines : RelayEvent → List String
  | .ledgerMsg none => ["Failed to parse ledger_updates message"]
  | .logMsg none => ["Failed to parse log_stream message"]
  | .connect _ => ["User connected to WebSocket"]
  | _ => []

/-- The console output of a whole trace. -/
def consoleOf (tr : List RelayEvent) : List String :=
  tr.flatMap consoleLines

/-- Sequential processing of a trace of inbound events from a given
state (the node event loop handles one callback at a time). -/
def runRelay (s : RelayState) : List RelayEvent → RelayState
  | [] => s
  | ev :: tr => runRelay (relayStep s ev) tr

/-- The relay's startup state: empty `seenFingerprints`, no clients. -/
def initState : RelayState :=
  { seen := [], clients := [], delivered := [], emits := [] }

/-- Processing a trace from process start. -/
def processTrace (tr : List RelayEvent) : RelayState :=
  runRelay initState tr

/-- Does this push event carry a `ledger_update` with the given
fingerprint key? -/
def isFpPush (fp : Option String) : Push → Bool
  | .ledgerUpdate e => decide (e.fingerprint = fp)
  | .logLine _ => false

/-- Number of `ledger_update` emits carrying fingerprint key `fp`. -/
def ledgerEmitCount (fp : Option String) (s : RelayState) : Nat :=
  s.emits.countP (isFpPush fp)

/-- Number of `ledger_update` pushes with fingerprint key `fp` delivered
to client `c`. -/
def ledgerDeliveredCount (fp : Option String) (c : Nat) (s : RelayState) : Nat :=
  s.delivered.countP (fun p => decide (p.1 = c) && isFpPush fp p.2)

/-- Is this event a well-formed `ledger_updates` message with
fingerprint key `fp`? -/
def isWfLedgerFp (fp : Option String) : RelayEvent → Bool
  | .ledgerMsg (some e) => decide (e.fingerprint = fp)
  | _ => false

/-- Number of well-formed `ledger_updates` messages with fingerprint key
`fp` in a trace. -/
def wfLedgerCount (fp : Option String) (tr : List RelayEvent) : Nat :=
  tr.countP (isWfLedgerFp fp)

/-- Is this event a connection of client `c`? -/
def isConnect (c : Nat) : RelayEvent → Bool
  | .connect c2 => decide (c2 = c)
  | _ => false

/-- Number of connections of client `c` in a trace (one real socket
connects at most once; distinct sockets are distinct client ids). -/
def connectCount (c : Nat) (tr : List RelayEvent) : Nat :=
  tr.countP (isConnect c)

/-- Number of occurrences of client `c` in the connected-client list. -/
def clientCount (c : Nat) (s : RelayState) : Nat :=
  s.clients.countP (fun c2 => decide (c2 = c))

/-- The well-formed ledger entries of a trace, in arrival order. -/
def wfLedgers (tr : List RelayEvent) : List LedgerMsg :=
  tr.filterMap (fun ev => match ev with
    | .ledgerMsg (some e) => some e
    | _ => none)

/-- The well-formed log payloads of a trace, in arrival order. -/
def wfLogs (tr : List RelayEvent) : List LogMsg :=
  tr.filterMap (fun ev => match ev with
    | .logMsg (some m) => some m
    | _ => none)

/-- Every push delivered to client `c`, in delivery order. -/
def deliveredTo (c : Nat) (s : RelayState) : List Push :=
  s.delivered.filterMap (fun p => if p.1 = c then some p.2 else none)

/-- The ledger entries delivered to client `c`, in delivery order. -/
def deliveredLedgersTo (c : Nat) (s : RelayState) : List LedgerMsg :=
  s.delivered.filterMap (fun p => match p with
    | (c2, .ledgerUpdate e) => if c2 = c then some e else none
    | _ => none)

/-- The log payloads delivered to client `c`, in delivery order. -/
def deliveredLogsTo (c : Nat) (s : RelayState) : List LogMsg :=
  s.delivered.filterMap (fun p => match p with
    | (c2, .logLine m) => if c2 = c then some m else none
    | _ => none)

/-- The log payloads emitted over socket.io, in emit order. -/
def emittedLogs (s : RelayState) : List LogMsg :=
  s.emits.filterMap (fun p => match p with
    | .logLine m => some m
    | _ => none)

/-- JS falsiness of an optional string field: `undefined` and the empty
string are falsy (`!entry.fingerprint`). -/
def jsFalsy : Option String → Bool
  | none => true
  | some s => decide (s = "")

/-- Executable model of JS `String.prototype.trim`: strip leading and
trailing whitespace (structurally recursive, unlike core `String`'s
trim, so that concrete instances evaluate). -/
def jsTrim (s : String) : String :=
  ⟨((s.data.dropWhile Char.isWhitespace).reverse.dropWhile Char.isWhitespace).reverse⟩

/-- The client-side ledger handler `handleUpdate` of `LedgerTable.tsx`:
drop entries without a (truthy) fingerprint; drop entries whose trimmed
fingerprint matches a retained entry; drop entries agreeing with a
retained entry on vendor, amount, date and referenceid; otherwise
prepend the entry. -/
def handleUpdate (prev : List LedgerMsg) (entry : LedgerMsg) : List LedgerMsg :=
  if jsFalsy entry.fingerprint then prev
  else
    let fingerprint := jsTrim (entry.fingerprint.getD "")
    if prev.any (fun e => decide (e.fingerprint.map jsTrim = some fingerprint)) then
      prev
    else if prev.any (fun e =>
        decide (e.vendor = entry.vendor) && decide (e.amount = entry.amount) &&
        decide (e.date = entry.date) && decide (e.referenceid = entry.referenceid)) then
      prev
    else
      entry :: prev

/-- JS `Array.prototype.slice(-n)`: the final `n` elements (all of them
when the array is shorter). -/
def sliceNeg (n : Nat) (xs : List String) : List String :=
  xs.drop (xs.length - n)

/-- The `log_stream` handler of `LiveConsole.tsx`:
`[...prev.slice(-299), msg.log ?? JSON.stringify(msg)]`. -/
def logStreamUpdate (prev : List String) (m : LogMsg) : List String :=
  sliceNeg 299 prev ++ [m.log.getD m.raw]

/-- Result of a Claim Store claim. -/
inductive ClaimResult where
  | accepted
  | alreadyClaimed
deriving DecidableEq

/-- Modelled from the spec: the Claim Store lives in the FastAPI backend
service, whose code is absent from the repository snapshot.  Per §4.1 it
is an atomic check-and-insert keyed by fingerprint:
`Claim(fingerprint) -> {Accepted | AlreadyClaimed}`, with no un-claim
path. -/
def claimFp (store : List String) (fp : String) : ClaimResult × List String :=
  if fp ∈ store then (.alreadyClaimed, store) else (.accepted, fp :: store)

/-- Modelled from the spec: a serialization of atomic `Claim` calls.
Because each call is atomic, every interleaving of N concurrent callers
is observationally one such serialization. -/
def runClaims (store : List String) : List String → List ClaimResult × List String
  | [] => ([], store)
  | f :: rest =>
      let r := claimFp store f
      let rs := runClaims r.2 rest
      (r.1 :: rs.1, rs.2)

/-! ### Basic trace lemmas -/

theorem runRelay_cons (s : RelayState) (ev : RelayEvent) (tr : List RelayEvent) :
    runRelay s (ev :: tr) = runRelay (relayStep s ev) tr := rfl

theorem runRelay_append (s : RelayState) (t1 t2 : List RelayEvent) :
    runRelay s (t1 ++ t2) = runRelay (runRelay s t1) t2 := by
  induction t1 generalizing s with
  | nil => rfl
  | cons ev tr ih => simp [runRelay, ih]

theorem mem_seen_runRelay (tr : List RelayEvent) :
    ∀ (s : RelayState) (fp : Option String),
      fp ∈ (runRelay s tr).seen ↔ fp ∈ s.seen ∨ 0 < wfLedgerCount fp tr := by
  induction tr with
  | nil => intro s fp; simp [runRelay, wfLedgerCount]
  | cons ev tr ih =>
    intro s fp
    rw [runRelay_cons, ih]
    cases ev with
    | ledgerMsg raw =>
      cases raw with
      | none => simp [relayStep, wfLedgerCount, List.countP_cons, isWfLedgerFp]
      | some e =>
        by_cases hfp : e.fingerprint = fp
        · subst hfp
          by_cases h : e.fingerprint ∈ s.seen
          · simp [relayStep, h, wfLedgerCount, List.countP_cons, isWfLedgerFp]
          · simp [relayStep, h, ioEmit, wfLedgerCount, List.countP_cons, isWfLedgerFp]
        · by_cases h : e.fingerprint ∈ s.seen
          · simp [relayStep, h, wfLedgerCount, List.countP_cons, isWfLedgerFp, hfp]
          · simp [relayStep, h, ioEmit, wfLedgerCount, List.countP_cons, isWfLedgerFp, hfp]
            tauto
    | logMsg raw =>
      cases raw with
      | none => simp [relayStep, wfLedgerCount, List.countP_cons, isWfLedgerFp]
      | some m => simp [relayStep, ioEmit, wfLedgerCount, List.countP_cons, isWfLedgerFp]
    | connect c => simp [relayStep, wfLedgerCount, List.countP_cons, isWfLedgerFp]

theorem clientCount_runRelay (tr : List RelayEvent) :
    ∀ (s : RelayState) (c : Nat),
      clientCount c (runRelay s tr) = clientCount c s + connectCount c tr := by
  induction tr with
  | nil => intro s c; simp [runRelay, connectCount]
  | cons ev tr ih =>
    intro s c
    rw [runRelay_cons, ih]
    cases ev with
    | ledgerMsg raw =>
      cases raw with
      | none => simp [relayStep, connectCount, List.countP_cons, isConnect]
      | some e =>
        by_cases h : e.fingerprint ∈ s.seen
        · simp [relayStep, h, connectCount, List.countP_cons, isConnect]
        · simp [relayStep, h, ioEmit, clientCount, connectCount, List.countP_cons, isConnect]
    | logMsg raw =>
      cases raw with
      | none => simp [relayStep, connectCount, List.countP_cons, isConnect]
      | some m => simp [relayStep, ioEmit, clientCount, connectCount, List.countP_cons, isConnect]
    | connect c2 =>
      by_cases hc : c2 = c
      · subst hc
        simp [relayStep, clientCount, connectCount, List.countP_cons, List.countP_append, isConnect]
        omega
      · simp [relayStep, clientCount, connectCount, List.countP_cons, List.countP_append, isConnect, hc]

theorem seen_ioEmit (s : RelayState) (p : Push) : (ioEmit s p).seen = s.seen := rfl

theorem clients_ioEmit (s : RelayState) (p : Push) : (ioEmit s p).clients = s.clients := rfl

theorem ledgerEmitCount_ioEmit (s : RelayState) (p : Push) (fp : Option String) :
    ledgerEmitCount fp (ioEmit s p) =
      ledgerEmitCount fp s + (if isFpPush fp p then 1 else 0) := by
  simp [ledgerEmitCount, ioEmit, List.countP_append, List.countP_cons]

theorem ledgerDeliveredCount_ioEmit (s : RelayState) (p : Push) (fp : Option String) (c : Nat) :
    ledgerDeliveredCount fp c (ioEmit s p) =
      ledgerDeliveredCount fp c s + (if isFpPush fp p then clientCount c s else 0) := by
  by_cases h : isFpPush fp p
  · simp [ledgerDeliveredCount, ioEmit, List.countP_append, List.countP_map,
      Function.comp_def, h, clientCount]
  · simp [ledgerDeliveredCount, ioEmit, List.countP_append, List.countP_map,
      Function.comp_def, h]

theorem stable_of_seen (tr : List RelayEvent) :
    ∀ (s : RelayState) (fp : Option String), fp ∈ s.seen →
      ledgerEmitCount fp (runRelay s tr) = ledgerEmitCount fp s ∧
      ∀ c, ledgerDeliveredCount fp c (runRelay s tr) = ledgerDeliveredCount fp c s := by
  induction tr with
  | nil => intro s fp _; exact ⟨rfl, fun _ => rfl⟩
  | cons ev tr ih =>
    intro s fp hfp
    rw [runRelay_cons]
    cases ev with
    | ledgerMsg raw =>
      cases raw with
      | none => exact ih s fp hfp
      | some e =>
        by_cases h : e.fingerprint ∈ s.seen
        · simpa [relayStep, h] using ih s fp hfp
        · have hne : ¬ isFpPush fp (Push.ledgerUpdate e) = true := by
            simp [isFpPush]
            intro he
            exact h (he ▸ hfp)
          have hmem : fp ∈ ({ s with seen := e.fingerprint :: s.seen } : RelayState).seen := by
            simp [List.mem_cons]; tauto
          have := ih (ioEmit { s with seen := e.fingerprint :: s.seen } (.ledgerUpdate e)) fp
            (by simpa [seen_ioEmit] using hmem)
          simp [relayStep, h]
          rw [this.1, ledgerEmitCount_ioEmit]
          refine ⟨by simp [hne, ledgerEmitCount], fun c => ?_⟩
          rw [this.2 c, ledgerDeliveredCount_ioEmit]
          simp [hne, ledgerDeliveredCount]
    | logMsg raw =>
      cases raw with
      | none => exact ih s fp hfp
      | some m =>
        have := ih (ioEmit s (.logLine m)) fp (by simpa [seen_ioEmit] using hfp)
        simp [relayStep]
        rw [this.1, ledgerEmitCount_ioEmit]
        refine ⟨by simp [isFpPush, ledgerEmitCount], fun c => ?_⟩
        rw [this.2 c, ledgerDeliveredCount_ioEmit]
        simp [isFpPush, ledgerDeliveredCount]
    | connect c2 =>
      have := ih { s with clients := s.clients ++ [c2] } fp (by simpa using hfp)
      simpa [relayStep] using this

theorem emitCount_of_unseen (tr : List RelayEvent) :
    ∀ (s : RelayState) (fp : Option String), fp ∉ s.seen →
      ledgerEmitCount fp (runRelay s tr) =
        ledgerEmitCount fp s + min 1 (wfLedgerCount fp tr) := by
  induction tr with
  | nil => intro s fp _; simp [runRelay, wfLedgerCount]
  | cons ev tr ih =>
    intro s fp hfp
    rw [runRelay_cons]
    cases ev with
    | ledgerMsg raw =>
      cases raw with
      | none =>
        simpa [relayStep, wfLedgerCount, List.countP_cons, isWfLedgerFp] using ih s fp hfp
      | some e =>
        by_cases hefp : e.fingerprint = fp
        · subst hefp
          simp only [relayStep, if_neg hfp]
          have hseen : e.fingerprint ∈
              (ioEmit { s with seen := e.fingerprint :: s.seen } (.ledgerUpdate e)).seen := by
            simp [seen_ioEmit]
          have := (stable_of_seen tr _ e.fingerprint hseen).1
          rw [this, ledgerEmitCount_ioEmit]
          simp [isFpPush, ledgerEmitCount, wfLedgerCount, List.countP_cons, isWfLedgerFp]
        · by_cases h : e.fingerprint ∈ s.seen
          · simp only [relayStep, h, if_pos]
            simpa [wfLedgerCount, List.countP_cons, isWfLedgerFp, hefp] using ih s fp hfp
          · simp only [relayStep, if_neg h]
            have hfp2 : fp ∉
                (ioEmit { s with seen := e.fingerprint :: s.seen } (.ledgerUpdate e)).seen := by
              simp [seen_ioEmit]
              exact ⟨fun hh => hefp hh.symm, hfp⟩
            rw [ih _ fp hfp2, ledgerEmitCount_ioEmit]
            simp [isFpPush, hefp, ledgerEmitCount, wfLedgerCount, List.countP_cons, isWfLedgerFp]
    | logMsg raw =>
      cases raw with
      | none =>
        simpa [relayStep, wfLedgerCount, List.countP_cons, isWfLedgerFp] using ih s fp hfp
      | some m =>
        have hfp2 : fp ∉ (ioEmit s (.logLine m)).seen := by simpa [seen_ioEmit] using hfp
        rw [relayStep, ih _ fp hfp2, ledgerEmitCount_ioEmit]
        simp [isFpPush, ledgerEmitCount, wfLedgerCount, List.countP_cons, isWfLedgerFp]
    | connect c2 =>
      have hfp2 : fp ∉ ({ s with clients := s.clients ++ [c2] } : RelayState).seen := hfp
      rw [relayStep, ih _ fp hfp2]
      simp [ledgerEmitCount, wfLedgerCount, List.countP_cons, isWfLedgerFp]

theorem deliveredCount_le_one (tr : List RelayEvent) :
    ∀ (s : RelayState) (fp : Option String) (c : Nat),
      clientCount c s + connectCount c tr ≤ 1 →
      ledgerDeliveredCount fp c s ≤ 1 →
      (0 < ledgerDeliveredCount fp c s → fp ∈ s.seen) →
      ledgerDeliveredCount fp c (runRelay s tr) ≤ 1 := by
  induction tr with
  | nil => intro s fp c _ h2 _; exact h2
  | cons ev tr ih =>
    intro s fp c h1 h2 h3
    have h1tr : clientCount c s + connectCount c tr ≤ 1 := by
      have : connectCount c tr ≤ connectCount c (ev :: tr) := by
        simp [connectCount, List.countP_cons]
      omega
    rw [runRelay_cons]
    cases ev with
    | ledgerMsg raw =>
      cases raw with
      | none => exact ih s fp c h1tr h2 h3
      | some e =>
        by_cases h : e.fingerprint ∈ s.seen
        · simp only [relayStep, if_pos h]
          exact ih s fp c h1tr h2 h3
        · simp only [relayStep, if_neg h]
          by_cases hefp : e.fingerprint = fp
          · subst hefp
            have hzero : ledgerDeliveredCount e.fingerprint c s = 0 := by
              by_contra hz
              exact h (h3 (Nat.pos_of_ne_zero hz))
            refine ih _ e.fingerprint c (by simpa [clientCount, clients_ioEmit] using h1tr) ?_ ?_
            · rw [ledgerDeliveredCount_ioEmit]
              have hd : ledgerDeliveredCount e.fingerprint c
                  ({ s with seen := e.fingerprint :: s.seen } : RelayState) =
                  ledgerDeliveredCount e.fingerprint c s := rfl
              have hc2 : clientCount c ({ s with seen := e.fingerprint :: s.seen } : RelayState) =
                  clientCount c s := rfl
              have hif : isFpPush e.fingerprint (Push.ledgerUpdate e) = true := by
                simp [isFpPush]
              rw [hd, hc2]
              simp only [hif, if_true]
              omega
            · intro _
              simp [seen_ioEmit]
          · refine ih _ fp c (by simpa [clientCount, clients_ioEmit] using h1tr) ?_ ?_
            · rw [ledgerDeliveredCount_ioEmit]
              simpa [isFpPush, hefp, ledgerDeliveredCount] using h2
            · intro hpos
              rw [ledgerDeliveredCount_ioEmit] at hpos
              simp [isFpPush, hefp, ledgerDeliveredCount] at hpos
              have := h3 (by simpa [ledgerDeliveredCount] using hpos)
              simp [seen_ioEmit]
              tauto
    | logMsg raw =>
      cases raw with
      | none => exact ih s fp c h1tr h2 h3
      | some m =>
        rw [relayStep]
        refine ih _ fp c (by simpa [clientCount, clients_ioEmit] using h1tr) ?_ ?_
        · rw [ledgerDeliveredCount_ioEmit]
          simpa [isFpPush, ledgerDeliveredCount] using h2
        · intro hpos
          rw [ledgerDeliveredCount_ioEmit] at hpos
          simp [isFpPush, ledgerDeliveredCount] at hpos
          have := h3 (by simpa [ledgerDeliveredCount] using hpos)
          simpa [seen_ioEmit] using this
    | connect c2 =>
      rw [relayStep]
      refine ih _ fp c ?_ h2 h3
      have hcc : clientCount c ({ s with clients := s.clients ++ [c2] } : RelayState) =
          clientCount c s + (if c2 = c then 1 else 0) := by
        simp [clientCount, List.countP_append, List.countP_cons]
      have hconn : connectCount c (RelayEvent.connect c2 :: tr) =
          connectCount c tr + (if c2 = c then 1 else 0) := by
        simp [connectCount, List.countP_cons, isConnect]
      rw [hcc]
      rw [hconn] at h1
      omega

theorem deliveredCount_eq_one (tr : List RelayEvent) :
    ∀ (s : RelayState) (fp : Option String) (c : Nat),
      clientCount c s = 1 →
      connectCount c tr = 0 →
      fp ∉ s.seen →
      ledgerDeliveredCount fp c s = 0 →
      0 < wfLedgerCount fp tr →
      ledgerDeliveredCount fp c (runRelay s tr) = 1 := by
  induction tr with
  | nil => intro s fp c _ _ _ _ h5; simp [wfLedgerCount] at h5
  | cons ev tr ih =>
    intro s fp c h1 h2 h3 h4 h5
    rw [runRelay_cons]
    cases ev with
    | ledgerMsg raw =>
      have h2tr : connectCount c tr = 0 := by
        simpa [connectCount, List.countP_cons, isConnect] using h2
      cases raw with
      | none =>
        refine ih s fp c h1 h2tr h3 h4 ?_
        simpa [wfLedgerCount, List.countP_cons, isWfLedgerFp] using h5
      | some e =>
        by_cases hefp : e.fingerprint = fp
        · subst hefp
          simp only [relayStep, if_neg h3]
          have hseen : e.fingerprint ∈
              (ioEmit { s with seen := e.fingerprint :: s.seen } (.ledgerUpdate e)).seen := by
            simp [seen_ioEmit]
          rw [(stable_of_seen tr _ e.fingerprint hseen).2 c, ledgerDeliveredCount_ioEmit]
          have hd : ledgerDeliveredCount e.fingerprint c
              ({ s with seen := e.fingerprint :: s.seen } : RelayState) =
              ledgerDeliveredCount e.fingerprint c s := rfl
          have hc2 : clientCount c ({ s with seen := e.fingerprint :: s.seen } : RelayState) =
              clientCount c s := rfl
          have hif : isFpPush e.fingerprint (Push.ledgerUpdate e) = true := by
            simp [isFpPush]
          rw [hd, hc2, h4, h1]
          simp [hif]
        · have h5tr : 0 < wfLedgerCount fp tr := by
            simpa [wfLedgerCount, List.countP_cons, isWfLedgerFp, hefp] using h5
          by_cases h : e.fingerprint ∈ s.seen
          · simp only [relayStep, if_pos h]
            exact ih s fp c h1 h2tr h3 h4 h5tr
          · simp only [relayStep, if_neg h]
            refine ih _ fp c h1 h2tr ?_ ?_ h5tr
            · simp [seen_ioEmit]
              exact ⟨fun hh => hefp hh.symm, h3⟩
            · rw [ledgerDeliveredCount_ioEmit]
              simpa [isFpPush, hefp, ledgerDeliveredCount] using h4
    | logMsg raw =>
      have h2tr : connectCount c tr = 0 := by
        simpa [connectCount, List.countP_cons, isConnect] using h2
      have h5tr : 0 < wfLedgerCount fp tr := by
        simpa [wfLedgerCount, List.countP_cons, isWfLedgerFp] using h5
      cases raw with
      | none => exact ih s fp c h1 h2tr h3 h4 h5tr
      | some m =>
        rw [relayStep]
        refine ih _ fp c h1 h2tr (by simpa [seen_ioEmit] using h3) ?_ h5tr
        rw [ledgerDeliveredCount_ioEmit]
        simpa [isFpPush, ledgerDeliveredCount] using h4
    | connect c2 =>
      have hc : ¬ c2 = c := by
        intro hc
        subst hc
        simp [connectCount, List.countP_cons, isConnect] at h2
      have h2tr : connectCount c tr = 0 := by
        simpa [connectCount, List.countP_cons, isConnect, hc] using h2
      have h5tr : 0 < wfLedgerCount fp tr := by
        simpa [wfLedgerCount, List.countP_cons, isWfLedgerFp] using h5
      rw [relayStep]
      refine ih _ fp c ?_ h2tr h3 h4 h5tr
      simpa [clientCount, List.countP_append, List.countP_cons, hc] using h1

theorem filterMap_ite_replicate {α : Type} (l : List Nat) (c : Nat) (o : Option α) :
    l.filterMap (fun c2 => if c2 = c then o else none) =
      (match o with
       | some a => List.replicate (l.countP fun c2 => decide (c2 = c)) a
       | none => []) := by
  induction l with
  | nil => cases o <;> simp
  | cons a l ih =>
    cases o <;> by_cases h : a = c <;>
      simp_all [List.replicate_succ, List.countP_cons, List.filterMap_cons]

theorem deliveredTo_ioEmit (s : RelayState) (p : Push) (c : Nat) :
    deliveredTo c (ioEmit s p) = deliveredTo c s ++ List.replicate (clientCount c s) p := by
  simp only [deliveredTo, ioEmit, List.filterMap_append, List.filterMap_map, Function.comp_def]
  rw [filterMap_ite_replicate (o := some p)]
  rfl

theorem deliveredLogsTo_ioEmit_log (s : RelayState) (m : LogMsg) (c : Nat) :
    deliveredLogsTo c (ioEmit s (.logLine m)) =
      deliveredLogsTo c s ++ List.replicate (clientCount c s) m := by
  simp only [deliveredLogsTo, ioEmit, List.filterMap_append, List.filterMap_map,
    Function.comp_def]
  rw [show (fun c2 => (match ((c2 : Nat), Push.logLine m) with
      | (c2, .logLine m) => if c2 = c then some m else none
      | _ => none)) = fun c2 => if c2 = c then some m else none from rfl]
  rw [filterMap_ite_replicate (o := some m)]
  rfl

theorem deliveredLogsTo_ioEmit_ledger (s : RelayState) (e : LedgerMsg) (c : Nat) :
    deliveredLogsTo c (ioEmit s (.ledgerUpdate e)) = deliveredLogsTo c s := by
  simp [deliveredLogsTo, ioEmit, List.filterMap_append, List.filterMap_map, Function.comp_def]

theorem deliveredLedgersTo_ioEmit_ledger (s : RelayState) (e : LedgerMsg) (c : Nat) :
    deliveredLedgersTo c (ioEmit s (.ledgerUpdate e)) =
      deliveredLedgersTo c s ++ List.replicate (clientCount c s) e := by
  simp only [deliveredLedgersTo, ioEmit, List.filterMap_append, List.filterMap_map,
    Function.comp_def]
  rw [show (fun c2 => (match ((c2 : Nat), Push.ledgerUpdate e) with
      | (c2, .ledgerUpdate e) => if c2 = c then some e else none
      | _ => none)) = fun c2 => if c2 = c then some e else none from rfl]
  rw [filterMap_ite_replicate (o := some e)]
  rfl

theorem deliveredLedgersTo_ioEmit_log (s : RelayState) (m : LogMsg) (c : Nat) :
    deliveredLedgersTo c (ioEmit s (.logLine m)) = deliveredLedgersTo c s := by
  simp [deliveredLedgersTo, ioEmit, List.filterMap_append, List.filterMap_map, Function.comp_def]

theorem deliveredLogsTo_runRelay (tr : List RelayEvent) :
    ∀ (s : RelayState) (c : Nat),
      clientCount c s = 1 → connectCount c tr = 0 →
      deliveredLogsTo c (runRelay s tr) = deliveredLogsTo c s ++ wfLogs tr := by
  induction tr with
  | nil => intro s c _ _; simp [runRelay, wfLogs]
  | cons ev tr ih =>
    intro s c h1 h2
    rw [runRelay_cons]
    cases ev with
    | ledgerMsg raw =>
      have h2tr : connectCount c tr = 0 := by
        simpa [connectCount, List.countP_cons, isConnect] using h2
      cases raw with
      | none => simpa [relayStep, wfLogs, List.filterMap_cons] using ih s c h1 h2tr
      | some e =>
        by_cases h : e.fingerprint ∈ s.seen
        · simp only [relayStep, if_pos h]
          simpa [wfLogs, List.filterMap_cons] using ih s c h1 h2tr
        · simp only [relayStep, if_neg h]
          rw [ih _ c (by simpa [clientCount, clients_ioEmit] using h1) h2tr,
            deliveredLogsTo_ioEmit_ledger]
          simp [wfLogs, List.filterMap_cons, deliveredLogsTo]
    | logMsg raw =>
      have h2tr : connectCount c tr = 0 := by
        simpa [connectCount, List.countP_cons, isConnect] using h2
      cases raw with
      | none => simpa [relayStep, wfLogs, List.filterMap_cons] using ih s c h1 h2tr
      | some m =>
        rw [relayStep, ih _ c (by simpa [clientCount, clients_ioEmit] using h1) h2tr,
          deliveredLogsTo_ioEmit_log, h1]
        simp [wfLogs, List.filterMap_cons]
    | connect c2 =>
      have hc : ¬ c2 = c := by
        intro hc
        subst hc
        simp [connectCount, List.countP_cons, isConnect] at h2
      have h2tr : connectCount c tr = 0 := by
        simpa [connectCount, List.countP_cons, isConnect, hc] using h2
      rw [relayStep, ih _ c (by simpa [clientCount, List.countP_append, hc] using h1) h2tr]
      simp [wfLogs, List.filterMap_cons, deliveredLogsTo]

theorem deliveredTo_runRelay_unconnected (tr : List RelayEvent) :
    ∀ (s : RelayState) (c : Nat),
      clientCount c s = 0 → connectCount c tr = 0 →
      deliveredTo c (runRelay s tr) = deliveredTo c s := by
  induction tr with
  | nil => intro s c _ _; rfl
  | cons ev tr ih =>
    intro s c h1 h2
    rw [runRelay_cons]
    cases ev with
    | ledgerMsg raw =>
      have h2tr : connectCount c tr = 0 := by
        simpa [connectCount, List.countP_cons, isConnect] using h2
      cases raw with
      | none => exact ih s c h1 h2tr
      | some e =>
        by_cases h : e.fingerprint ∈ s.seen
        · simp only [relayStep, if_pos h]
          exact ih s c h1 h2tr
        · simp only [relayStep, if_neg h]
          rw [ih _ c (by simpa [clientCount, clients_ioEmit] using h1) h2tr,
            deliveredTo_ioEmit]
          have hcc : clientCount c ({ s with seen := e.fingerprint :: s.seen } : RelayState) =
              clientCount c s := rfl
          rw [hcc, h1]
          simp [deliveredTo]
    | logMsg raw =>
      have h2tr : connectCount c tr = 0 := by
        simpa [connectCount, List.countP_cons, isConnect] using h2
      cases raw with
      | none => exact ih s c h1 h2tr
      | some m =>
        rw [relayStep, ih _ c (by simpa [clientCount, clients_ioEmit] using h1) h2tr,
          deliveredTo_ioEmit, h1]
        simp
    | connect c2 =>
      have hc : ¬ c2 = c := by
        intro hc
        subst hc
        simp [connectCount, List.countP_cons, isConnect] at h2
      have h2tr : connectCount c tr = 0 := by
        simpa [connectCount, List.countP_cons, isConnect, hc] using h2
      rw [relayStep, ih _ c (by simpa [clientCount, List.countP_append, hc] using h1) h2tr]
      rfl

theorem deliveredLedgersTo_sublist (tr : List RelayEvent) :
    ∀ (s : RelayState) (c : Nat),
      clientCount c s + connectCount c tr ≤ 1 →
      ∃ d, deliveredLedgersTo c (runRelay s tr) = deliveredLedgersTo c s ++ d ∧
        d.Sublist (wfLedgers tr) := by
  induction tr with
  | nil => intro s c _; exact ⟨[], by simp [runRelay], by simp [wfLedgers]⟩
  | cons ev tr ih =>
    intro s c h1
    have h1tr : clientCount c s + connectCount c tr ≤ 1 := by
      have : connectCount c tr ≤ connectCount c (ev :: tr) := by
        simp [connectCount, List.countP_cons]
      omega
    rw [runRelay_cons]
    cases ev with
    | ledgerMsg raw =>
      cases raw with
      | none =>
        obtain ⟨d, hd, hsub⟩ := ih s c h1tr
        exact ⟨d, hd, by simpa [wfLedgers, List.filterMap_cons] using hsub⟩
      | some e =>
        by_cases h : e.fingerprint ∈ s.seen
        · simp only [relayStep, if_pos h]
          obtain ⟨d, hd, hsub⟩ := ih s c h1tr
          refine ⟨d, hd, ?_⟩
          simp only [wfLedgers, List.filterMap_cons]
          exact hsub.cons e
        · simp only [relayStep, if_neg h]
          obtain ⟨d, hd, hsub⟩ := ih
            (ioEmit { s with seen := e.fingerprint :: s.seen } (.ledgerUpdate e)) c
            (by simpa [clientCount, clients_ioEmit] using h1tr)
          rw [hd, deliveredLedgersTo_ioEmit_ledger]
          have hcc : clientCount c ({ s with seen := e.fingerprint :: s.seen } : RelayState) =
              clientCount c s := rfl
          rw [hcc]
          have hone : clientCount c s = 0 ∨ clientCount c s = 1 := by omega
          rcases hone with h0 | hone
          · refine ⟨d, ?_, ?_⟩
            · simp [h0, deliveredLedgersTo]
            · simp only [wfLedgers, List.filterMap_cons]
              exact hsub.cons e
          · refine ⟨e :: d, ?_, ?_⟩
            · simp [hone, deliveredLedgersTo, List.replicate_succ]
            · simp only [wfLedgers, List.filterMap_cons]
              exact hsub.cons₂ e
    | logMsg raw =>
      cases raw with
      | none =>
        obtain ⟨d, hd, hsub⟩ := ih s c h1tr
        exact ⟨d, hd, by simpa [wfLedgers, List.filterMap_cons] using hsub⟩
      | some m =>
        obtain ⟨d, hd, hsub⟩ := ih (ioEmit s (.logLine m)) c
          (by simpa [clientCount, clients_ioEmit] using h1tr)
        rw [relayStep, hd, deliveredLedgersTo_ioEmit_log]
        exact ⟨d, rfl, by simpa [wfLedgers, List.filterMap_cons] using hsub⟩
    | connect c2 =>
      have h1c : clientCount c ({ s with clients := s.clients ++ [c2] } : RelayState) +
          connectCount c tr ≤ 1 := by
        have hcc : clientCount c ({ s with clients := s.clients ++ [c2] } : RelayState) =
            clientCount c s + (if c2 = c then 1 else 0) := by
          simp [clientCount, List.countP_append, List.countP_cons]
        have hconn : connectCount c (RelayEvent.connect c2 :: tr) =
            connectCount c tr + (if c2 = c then 1 else 0) := by
          simp [connectCount, List.countP_cons, isConnect]
        rw [hcc]
        rw [hconn] at h1
        omega
      obtain ⟨d, hd, hsub⟩ := ih _ c h1c
      rw [relayStep] at *
      exact ⟨d, hd, by simpa [wfLedgers, List.filterMap_cons] using hsub⟩

theorem wfLedgerCount_pos_of_mem {tr : List RelayEvent} {e : LedgerMsg}
    (h : RelayEvent.ledgerMsg (some e) ∈ tr) : 0 < wfLedgerCount e.fingerprint tr := by
  rw [wfLedgerCount, List.countP_pos_iff]
  exact ⟨_, h, by simp [isWfLedgerFp]⟩

theorem emittedLogs_runRelay (tr : List RelayEvent) :
    ∀ s : RelayState, emittedLogs (runRelay s tr) = emittedLogs s ++ wfLogs tr := by
  induction tr with
  | nil => intro s; simp [runRelay, wfLogs]
  | cons ev tr ih =>
    intro s
    rw [runRelay_cons]
    cases ev with
    | ledgerMsg raw =>
      cases raw with
      | none => simpa [relayStep, wfLogs, List.filterMap_cons] using ih s
      | some e =>
        by_cases h : e.fingerprint ∈ s.seen
        · simp only [relayStep, if_pos h]
          simpa [wfLogs, List.filterMap_cons] using ih s
        · simp only [relayStep, if_neg h]
          rw [ih]
          simp [emittedLogs, ioEmit, List.filterMap_append, wfLogs, List.filterMap_cons]
    | logMsg raw =>
      cases raw with
      | none => simpa [relayStep, wfLogs, List.filterMap_cons] using ih s
      | some m =>
        rw [relayStep, ih]
        simp [emittedLogs, ioEmit, List.filterMap_append, wfLogs, List.filterMap_cons]
    | connect c2 =>
      rw [relayStep, ih]
      simp [emittedLogs, wfLogs, List.filterMap_cons]

theorem runClaims_replicate_claimed (k : Nat) :
    ∀ (store : List String) (f : String), f ∈ store →
      (runClaims store (List.replicate k f)).1 =
        List.replicate k ClaimResult.alreadyClaimed := by
  induction k with
  | zero => intro store f _; rfl
  | succ k ih =>
    intro store f h
    simp [runClaims, List.replicate_succ, claimFp, h, ih store f h]

/-! ### Demonstration inputs used by witnesses and counterexamples -/

/-- The `ledger_updates` payload of spec scenario 3 (fingerprint `f2`). -/
def msgF2 : LedgerMsg := { fingerprint := some "f2" }

/-- Two broadcasts carrying the same fingerprint `f2`. -/
def demoTrace : List RelayEvent :=
  [RelayEvent.ledgerMsg (some msgF2), RelayEvent.ledgerMsg (some msgF2)]

/-- A demonstration log payload. -/
def demoLog : LogMsg := { log := some "pipeline started", raw := "" }

/-- The same log line broadcast twice. -/
def demoLogTrace : List RelayEvent :=
  [RelayEvent.logMsg (some demoLog), RelayEvent.logMsg (some demoLog)]

/-- A ledger entry, and below a second entry agreeing with it on vendor,
amount, date and referenceid but carrying a different fingerprint. -/
def entryA : LedgerMsg :=
  { vendor := "Acme", amount := 120, date := "2024-01-01",
    referenceid := "INV-7", fingerprint := some "fpA" }

/-- Same content as `entryA`, distinct fingerprint. -/
def entryB : LedgerMsg :=
  { vendor := "Acme", amount := 120, date := "2024-01-01",
    referenceid := "INV-7", fingerprint := some "fpB" }

/-- A fingerprint-less ledger message (JSON object with no `fingerprint`
field), and below a second one with different content. -/
def noFpA : LedgerMsg := { vendor := "VendorA", fingerprint := none }

/-- A second fingerprint-less ledger message. -/
def noFpB : LedgerMsg := { vendor := "VendorB", fingerprint := none }

/-! ### Claim theorems -/

/-- C1: Relay fan-out is idempotent per fingerprint.  Over any trace of
processed `ledger_updates` messages, (i) the number of `ledger_update`
push events emitted for a fingerprint is `min 1` of the number of
well-formed messages carrying it — the first such message is emitted and
every later one is dropped; (ii) each connected client receives at most
one push per fingerprint; (iii) a client connected before the trace
receives exactly one push for a fingerprint that occurs in it, so two
broadcasts with one fingerprint yield exactly one push per client. -/
theorem relay_fanout_idempotent (tr : List RelayEvent) (fp : Option String) (c : Nat) :
    ledgerEmitCount fp (processTrace tr) = min 1 (wfLedgerCount fp tr) ∧
    (connectCount c tr ≤ 1 → ledgerDeliveredCount fp c (processTrace tr) ≤ 1) ∧
    (connectCount c tr = 0 → 0 < wfLedgerCount fp tr →
      ledgerDeliveredCount fp c (processTrace (RelayEvent.connect c :: tr)) = 1) := by
  refine ⟨?_, ?_, ?_⟩
  · have h := emitCount_of_unseen tr initState fp (by simp [initState])
    simpa [processTrace, ledgerEmitCount, initState] using h
  · intro h
    refine deliveredCount_le_one tr initState fp c ?_ ?_ ?_
    · simpa [clientCount, initState] using h
    · simp [ledgerDeliveredCount, initState]
    · simp [ledgerDeliveredCount, initState]
  · intro h0 hpos
    rw [processTrace, runRelay_cons]
    refine deliveredCount_eq_one tr _ fp c ?_ h0 ?_ ?_ hpos
    · simp [relayStep, initState, clientCount, List.countP_cons]
    · simp [relayStep, initState]
    · simp [ledgerDeliveredCount, relayStep, initState]

/-- C1 witness: spec scenario 3 — two broadcasts with fingerprint `f2`
while client `0` is connected give one emit and one delivery. -/
theorem relay_fanout_idempotent_witness :
    ledgerEmitCount (some "f2") (processTrace demoTrace) =
      min 1 (wfLedgerCount (some "f2") demoTrace) ∧
    ledgerDeliveredCount (some "f2") 0 (processTrace demoTrace) ≤ 1 ∧
    ledgerDeliveredCount (some "f2") 0
      (processTrace (RelayEvent.connect 0 :: demoTrace)) = 1 := by
  have h := relay_fanout_idempotent demoTrace (some "f2") 0
  exact ⟨h.1, h.2.1 (by decide), h.2.2 (by decide) (by decide)⟩

/-- C5: `log_stream` messages are relayed unfiltered: the sequence of
emitted log events is exactly the sequence of well-formed `log_stream`
payloads, in order and with multiplicity, and a connected client
receives them all — the same message received twice is emitted twice. -/
theorem log_stream_unfiltered (tr : List RelayEvent) (c : Nat) :
    emittedLogs (processTrace tr) = wfLogs tr ∧
    (connectCount c tr = 0 →
      deliveredLogsTo c (processTrace (RelayEvent.connect c :: tr)) = wfLogs tr) := by
  constructor
  · simpa [processTrace, emittedLogs, initState] using emittedLogs_runRelay tr initState
  · intro h0
    rw [processTrace, runRelay_cons]
    rw [deliveredLogsTo_runRelay tr _ c
      (by simp [relayStep, initState, clientCount, List.countP_cons]) h0]
    simp [deliveredLogsTo, relayStep, initState]

/-- C5 witness: the same log payload broadcast twice is delivered twice
to a connected client. -/
theorem log_stream_unfiltered_witness :
    emittedLogs (processTrace demoLogTrace) = [demoLog, demoLog] ∧
    deliveredLogsTo 0 (processTrace (RelayEvent.connect 0 :: demoLogTrace)) =
      [demoLog, demoLog] := by
  have h := log_stream_unfiltered demoLogTrace 0
  refine ⟨h.1.trans (by decide), (h.2 (by decide)).trans (by decide)⟩

/-- C6: publish-order delivery — the sequence of ledger entries the relay
delivers to a connected client is a subsequence (in order, no
reordering) of the well-formed `ledger_updates` messages in publish
order. -/
theorem ledger_updates_order (tr : List RelayEvent) (c : Nat)
    (h : connectCount c tr ≤ 1) :
    (deliveredLedgersTo c (processTrace tr)).Sublist (wfLedgers tr) := by
  obtain ⟨d, hd, hsub⟩ := deliveredLedgersTo_sublist tr initState c
    (by simpa [clientCount, initState] using h)
  rw [processTrace, hd]
  simpa [deliveredLedgersTo, initState] using hsub

/-- C6 witness: a concrete trace delivering two entries in publish
order. -/
theorem ledger_updates_order_witness :
    connectCount 0 (RelayEvent.connect 0 :: demoTrace) ≤ 1 ∧
    (deliveredLedgersTo 0 (processTrace (RelayEvent.connect 0 :: demoTrace))).Sublist
      (wfLedgers (RelayEvent.connect 0 :: demoTrace)) :=
  ⟨by decide, ledger_updates_order (RelayEvent.connect 0 :: demoTrace) 0 (by decide)⟩

/-- C7: no replay of history — a client that connects after an arbitrary
trace of processed messages has received nothing at the moment its
connection is established (the connection handler only logs; it pushes
no stored message). -/
theorem no_replay_on_connect (t1 : List RelayEvent) (c : Nat)
    (h : connectCount c t1 = 0) :
    deliveredTo c (processTrace (t1 ++ [RelayEvent.connect c])) = [] := by
  rw [processTrace, runRelay_append]
  have hstep : deliveredTo c (runRelay (runRelay initState t1) [RelayEvent.connect c]) =
      deliveredTo c (runRelay initState t1) := rfl
  rw [hstep, deliveredTo_runRelay_unconnected t1 initState c (by simp [clientCount, initState]) h]
  rfl

/-- C7 witness: after two ledger broadcasts and a log broadcast, a newly
connecting client has received no message. -/
theorem no_replay_on_connect_witness :
    deliveredTo 7 (processTrace
      ((demoTrace ++ demoLogTrace) ++ [RelayEvent.connect 7])) = [] :=
  no_replay_on_connect (demoTrace ++ demoLogTrace) 7 (by decide)

/-- C4: a payload that fails `JSON.parse` on either channel is dropped —
the relay state (dedup set, clients, deliveries, emits) is exactly as if
the message had never arrived, so processing of subsequent messages
continues unchanged and nothing reaches any client — and the
corresponding warning is logged.  The handler is a total function, so
the subscriber never crashes. -/
theorem malformed_payload_dropped (t1 t2 : List RelayEvent) :
    processTrace (t1 ++ RelayEvent.ledgerMsg none :: t2) = processTrace (t1 ++ t2) ∧
    processTrace (t1 ++ RelayEvent.logMsg none :: t2) = processTrace (t1 ++ t2) ∧
    "Failed to parse ledger_updates message" ∈
      consoleOf (t1 ++ RelayEvent.ledgerMsg none :: t2) ∧
    "Failed to parse log_stream message" ∈
      consoleOf (t1 ++ RelayEvent.logMsg none :: t2) := by
  refine ⟨?_, ?_, ?_, ?_⟩
  · rw [processTrace, processTrace, runRelay_append, runRelay_append, runRelay_cons]
    rfl
  · rw [processTrace, processTrace, runRelay_append, runRelay_append, runRelay_cons]
    rfl
  · rw [consoleOf, List.mem_flatMap]
    exact ⟨RelayEvent.ledgerMsg none, by simp, by simp [consoleLines]⟩
  · rw [consoleOf, List.mem_flatMap]
    exact ⟨RelayEvent.logMsg none, by simp, by simp [consoleLines]⟩

/-- C8: the relay's dedup set grows monotonically for the life of the
process: (i) every recorded fingerprint stays recorded under any further
trace; (ii) after any trace the set holds the fingerprint of every
well-formed message received so far; (iii) once a fingerprint is
recorded, no later message ever adds an emit or a delivery for it — it
stays suppressed regardless of how many messages follow. -/
theorem seen_fingerprints_monotone (t1 t2 : List RelayEvent) (fp : Option String) (c : Nat) :
    (∀ g, g ∈ (processTrace t1).seen → g ∈ (processTrace (t1 ++ t2)).seen) ∧
    (∀ e : LedgerMsg, RelayEvent.ledgerMsg (some e) ∈ t1 →
      e.fingerprint ∈ (processTrace t1).seen) ∧
    (fp ∈ (processTrace t1).seen →
      ledgerEmitCount fp (processTrace (t1 ++ t2)) =
        ledgerEmitCount fp (processTrace t1) ∧
      ledgerDeliveredCount fp c (processTrace (t1 ++ t2)) =
        ledgerDeliveredCount fp c (processTrace t1)) := by
  refine ⟨?_, ?_, ?_⟩
  · intro g hg
    rw [processTrace, runRelay_append, mem_seen_runRelay]
    exact Or.inl hg
  · intro e he
    rw [processTrace, mem_seen_runRelay]
    exact Or.inr (wfLedgerCount_pos_of_mem he)
  · intro hfp
    rw [processTrace, runRelay_append]
    have h := stable_of_seen t2 (runRelay initState t1) fp hfp
    exact ⟨h.1, h.2 c⟩

/-- C8 witness: after one `f2` broadcast the fingerprint is recorded,
and a further `f2` broadcast changes no emit count. -/
theorem seen_fingerprints_monotone_witness :
    some "f2" ∈ (processTrace [RelayEvent.ledgerMsg (some msgF2)]).seen ∧
    ledgerEmitCount (some "f2")
        (processTrace ([RelayEvent.ledgerMsg (some msgF2)] ++
          [RelayEvent.ledgerMsg (some msgF2)])) =
      ledgerEmitCount (some "f2") (processTrace [RelayEvent.ledgerMsg (some msgF2)]) := by
  have h := seen_fingerprints_monotone [RelayEvent.ledgerMsg (some msgF2)]
    [RelayEvent.ledgerMsg (some msgF2)] (some "f2") 0
  have hm : some "f2" ∈ (processTrace [RelayEvent.ledgerMsg (some msgF2)]).seen :=
    h.2.1 msgF2 (by simp)
  exact ⟨hm, (h.2.2 hm).1⟩

/-- C9: a JSON-parsable `ledger_updates` message without a `fingerprint`
field is deduplicated under the absent (`undefined`) key: the first one
is emitted (and delivered exactly once to a previously connected
client), the absent key is recorded in the dedup set, and every later
fingerprint-less message is silently dropped — at most one such push
ever reaches any client. -/
theorem fingerprintless_dedup (tr : List RelayEvent) (c : Nat) :
    ledgerEmitCount none (processTrace tr) = min 1 (wfLedgerCount none tr) ∧
    (∀ e : LedgerMsg, RelayEvent.ledgerMsg (some e) ∈ tr → e.fingerprint = none →
      none ∈ (processTrace tr).seen) ∧
    (connectCount c tr ≤ 1 → ledgerDeliveredCount none c (processTrace tr) ≤ 1) ∧
    (connectCount c tr = 0 → 0 < wfLedgerCount none tr →
      ledgerDeliveredCount none c (processTrace (RelayEvent.connect c :: tr)) = 1) := by
  refine ⟨?_, ?_, ?_, ?_⟩
  · have h := emitCount_of_unseen tr initState none (by simp [initState])
    simpa [processTrace, ledgerEmitCount, initState] using h
  · intro e he hnone
    rw [processTrace, mem_seen_runRelay]
    exact Or.inr (hnone ▸ wfLedgerCount_pos_of_mem he)
  · intro h
    refine deliveredCount_le_one tr initState none c ?_ ?_ ?_
    · simpa [clientCount, initState] using h
    · simp [ledgerDeliveredCount, initState]
    · simp [ledgerDeliveredCount, initState]
  · intro h0 hpos
    rw [processTrace, runRelay_cons]
    refine deliveredCount_eq_one tr _ none c ?_ h0 ?_ ?_ hpos
    · simp [relayStep, initState, clientCount, List.countP_cons]
    · simp [relayStep, initState]
    · simp [ledgerDeliveredCount, relayStep, initState]

/-- C9 witness: two fingerprint-less messages with different contents —
the first is delivered to the connected client, the second is dropped:
exactly one push arrives. -/
theorem fingerprintless_dedup_witness :
    ledgerEmitCount none (processTrace
        [RelayEvent.ledgerMsg (some noFpA), RelayEvent.ledgerMsg (some noFpB)]) =
      min 1 (wfLedgerCount none
        [RelayEvent.ledgerMsg (some noFpA), RelayEvent.ledgerMsg (some noFpB)]) ∧
    none ∈ (processTrace
        [RelayEvent.ledgerMsg (some noFpA), RelayEvent.ledgerMsg (some noFpB)]).seen ∧
    ledgerDeliveredCount none 0 (processTrace (RelayEvent.connect 0 ::
        [RelayEvent.ledgerMsg (some noFpA), RelayEvent.ledgerMsg (some noFpB)])) = 1 := by
  have h := fingerprintless_dedup
    [RelayEvent.ledgerMsg (some noFpA), RelayEvent.ledgerMsg (some noFpB)] 0
  exact ⟨h.1, h.2.1 noFpA (by simp) rfl, h.2.2.2 (by decide) (by decide)⟩

/-- C10: the live-console log history is bounded: each `log_stream`
update keeps only the most recent at-most-299 previously stored lines (a
suffix of the previous list) and appends the new line, so the stored
list never exceeds 300 entries, whatever the previous state. -/
theorem live_console_log_bound (prev : List String) (m : LogMsg) :
    (logStreamUpdate prev m).length ≤ 300 ∧
    (logStreamUpdate prev m).length = min prev.length 299 + 1 ∧
    List.IsSuffix (logStreamUpdate prev m).dropLast prev ∧
    (logStreamUpdate prev m).getLast? = some (m.log.getD m.raw) := by
  have hlen : (logStreamUpdate prev m).length = min prev.length 299 + 1 := by
    simp [logStreamUpdate, sliceNeg]
    omega
  refine ⟨by omega, hlen, ?_, ?_⟩
  · rw [logStreamUpdate, List.dropLast_concat]
    exact List.drop_suffix _ _
  · rw [logStreamUpdate]
    exact List.getLast?_concat _

/-- C2: atomic claim semantics — N calls of `Claim(f)` on a store not
yet holding `f` (any interleaving of N concurrent callers serializes to
this sequence, each call being atomic) produce exactly one `Accepted`
and N-1 `AlreadyClaimed`. -/
theorem claim_store_exactly_one_accepted (store : List String) (f : String) (n : Nat)
    (hf : f ∉ store) (hn : 1 ≤ n) :
    (runClaims store (List.replicate n f)).1.count ClaimResult.accepted = 1 ∧
    (runClaims store (List.replicate n f)).1.count ClaimResult.alreadyClaimed = n - 1 ∧
    (runClaims store (List.replicate n f)).1.length = n := by
  obtain ⟨k, rfl⟩ : ∃ k, n = k + 1 := ⟨n - 1, by omega⟩
  have hstep : claimFp store f = (ClaimResult.accepted, f :: store) := by
    simp [claimFp, hf]
  have hrest := runClaims_replicate_claimed k (f :: store) f (by simp)
  rw [List.replicate_succ]
  simp [runClaims, hstep, hrest, List.count_cons, List.count_replicate]

/-- C2 witness: spec scenario — three concurrent `Claim("abc123")`
callers on an empty store: one `Accepted`, two `AlreadyClaimed`. -/
theorem claim_store_exactly_one_accepted_witness :
    (runClaims [] (List.replicate 3 "abc123")).1.count ClaimResult.accepted = 1 ∧
    (runClaims [] (List.replicate 3 "abc123")).1.count ClaimResult.alreadyClaimed = 2 := by
  have h := claim_store_exactly_one_accepted [] "abc123" 3 (by simp) (by omega)
  exact ⟨h.1, h.2.1⟩

/-- C3 counterexample: deduplication is not keyed solely by fingerprint.
Two entries with distinct fingerprints but equal vendor, amount, date
and referenceid: the client-side handler drops the second instead of
retaining both. -/
theorem content_dedup_counterexample :
    entryA.fingerprint ≠ entryB.fingerprint ∧
    handleUpdate (handleUpdate [] entryA) entryB = [entryA] := by
  constructor
  · decide
  · rfl

/-- C3 amended: fingerprint-sole deduplication holds at the relay — a
message whose fingerprint is not yet recorded is emitted whatever its
other fields — but not at the client: the client-side handler also
drops an entry agreeing with a retained entry on vendor, amount, date
and referenceid, so two entries with distinct truthy trimmed
fingerprints are both retained exactly when they differ on at least one
of those four fields. -/
theorem dedup_key_amended (t1 : List RelayEvent) (e e1 e2 : LedgerMsg)
    (hnew : e.fingerprint ∉ (processTrace t1).seen)
    (h1 : jsFalsy e1.fingerprint = false) (h2 : jsFalsy e2.fingerprint = false)
    (hne : e1.fingerprint.map jsTrim ≠ e2.fingerprint.map jsTrim) :
    ledgerEmitCount e.fingerprint (processTrace (t1 ++ [RelayEvent.ledgerMsg (some e)])) =
      ledgerEmitCount e.fingerprint (processTrace t1) + 1 ∧
    (handleUpdate (handleUpdate [] e1) e2 = [e2, e1] ↔
      ¬ (e1.vendor = e2.vendor ∧ e1.amount = e2.amount ∧ e1.date = e2.date ∧
         e1.referenceid = e2.referenceid)) := by
  constructor
  · have hnew2 : e.fingerprint ∉ (runRelay initState t1).seen := hnew
    rw [processTrace, processTrace, runRelay_append]
    have hstep : runRelay (runRelay initState t1) [RelayEvent.ledgerMsg (some e)] =
        ioEmit { runRelay initState t1 with
          seen := e.fingerprint :: (runRelay initState t1).seen } (.ledgerUpdate e) := by
      simp [runRelay, relayStep, hnew2]
    rw [hstep, ledgerEmitCount_ioEmit]
    simp [isFpPush, ledgerEmitCount]
  · obtain ⟨s2, hs2⟩ : ∃ s2, e2.fingerprint = some s2 := by
      cases hfp : e2.fingerprint with
      | none => rw [hfp] at h2; simp [jsFalsy] at h2
      | some s => exact ⟨s, rfl⟩
    have hu1 : handleUpdate [] e1 = [e1] := by
      simp [handleUpdate, h1]
    rw [hu1]
    have hfpd : decide (e1.fingerprint.map jsTrim =
        some (jsTrim (e2.fingerprint.getD ""))) = false := by
      apply decide_eq_false
      intro heq
      apply hne
      rw [hs2] at heq ⊢
      simpa using heq
    by_cases hc : e1.vendor = e2.vendor ∧ e1.amount = e2.amount ∧ e1.date = e2.date ∧
        e1.referenceid = e2.referenceid
    · have hres : handleUpdate [e1] e2 = [e1] := by
        simp [handleUpdate, h2, hfpd, hc.1, hc.2.1, hc.2.2.1, hc.2.2.2]
      rw [hres]
      constructor
      · intro hq
        exact absurd hq (by simp)
      · intro hq
        exact absurd hc hq
    · have hcond : (decide (e1.vendor = e2.vendor) && decide (e1.amount = e2.amount) &&
          decide (e1.date = e2.date) && decide (e1.referenceid = e2.referenceid)) = false := by
        rw [Bool.eq_false_iff]
        intro hb
        simp only [Bool.and_eq_true, decide_eq_true_eq] at hb
        exact hc ⟨hb.1.1.1, hb.1.1.2, hb.1.2, hb.2⟩
      have hres : handleUpdate [e1] e2 = [e2, e1] := by
        simp only [handleUpdate, h2, Bool.false_eq_true, if_false, List.any_cons,
          List.any_nil, Bool.or_false, hfpd, hcond]
      rw [hres]
      exact ⟨fun _ => hc, fun _ => rfl⟩

/-- C3 amended witness: `entryA` is emitted by the relay as a fresh
fingerprint, and the client drops `entryB` (same content, distinct
fingerprint) rather than retaining both. -/
theorem dedup_key_amended_witness :
    ledgerEmitCount entryA.fingerprint
        (processTrace ([] ++ [RelayEvent.ledgerMsg (some entryA)])) =
      ledgerEmitCount entryA.fingerprint (processTrace []) + 1 ∧
    ¬ handleUpdate (handleUpdate [] entryA) entryB = [entryB, entryA] := by
  have h := dedup_key_amended [] entryA entryA entryB
    (by simp [processTrace, runRelay, initState]) (by decide) (by decide) (by decide)
  exact ⟨h.1, fun hq => (h.2.mp hq) ⟨rfl, rfl, rfl, rfl⟩⟩

end RTLedger
